import Mathlib

/-!
Verification of the deep-graph-matching-consensus core
(`src/dgmc/models/dgmc.py`) against its specification.

The numeric semantics of the tensor pipeline is modelled over the real
numbers, with IEEE non-finite values modelled explicitly where the source
lets them reach an operation: in `masked_softmax` (the `-inf` fill and the
possible `NaN` of a softmax over an all-`-inf` row), modelled by the type
`FVal`, and in the sparse branch, where the `inf`/`-inf` padding fills of
`to_dense_batch` flow unmasked into `top_k`, `gather` and a plain
`softmax`, modelled by the type `XF`.  In the dense branch every
fill-derived value is discarded by a `masked_fill` before it can reach an
output, so there the fills are kept as arbitrary real parameters and the
theorems show they never influence a result.
-/

namespace DGMC

open Real

/-- Float-like values appearing in the masked-softmax pipeline: a finite
real, negative infinity (the fill value of the first `masked_fill`), or
`NaN` (what `torch.softmax` produces on a row with no probability mass). -/
inductive FVal where
  | fin (x : ℝ)
  | negInf
  | nan

open Classical

/-- `masked_fill` from the source (line 9 / line 11): the source fills
positions where `~mask` holds, i.e. keeps `src` exactly where `mask` is
`true` and writes the fill value `v` elsewhere. -/
def maskedFill {ι : Type} (src : ι → FVal) (mask : ι → Bool) (v : FVal) : ι → FVal :=
  fun i => if mask i then src i else v

/-- Exponential on `FVal`, as used by softmax: `exp` of a finite value is
finite, `exp (-∞) = 0`, and `NaN` propagates. -/
noncomputable def fexp : FVal → FVal
  | FVal.fin x => FVal.fin (Real.exp x)
  | FVal.negInf => FVal.fin 0
  | FVal.nan => FVal.nan

/-- The real value of a non-`NaN` `FVal` after `fexp` (`NaN` is mapped to
`0` here only for totality; `softmaxF` never reads it in that case). -/
noncomputable def fexpR : FVal → ℝ
  | FVal.fin x => Real.exp x
  | FVal.negInf => 0
  | FVal.nan => 0

/-- `torch.softmax` along a row, on the rows this pipeline feeds it (finite
and `-∞` entries, or `NaN` poisoned): if any entry is `NaN` the whole row
is `NaN`; if the total mass is zero (an all-`-∞` row) every quotient is
`0/0 = NaN`; otherwise each entry is `exp xᵢ / Σⱼ exp xⱼ`. -/
noncomputable def softmaxF {ι : Type} [Fintype ι] (x : ι → FVal) : ι → FVal :=
  fun i =>
    if ∃ j, x j = FVal.nan then FVal.nan
    else if (∑ j, fexpR (x j)) = 0 then FVal.nan
    else FVal.fin (fexpR (x i) / ∑ j, fexpR (x j))

/-- `masked_softmax` (source lines 8–12): fill `-∞` where the mask is
false, softmax, then re-zero where the mask is false. -/
noncomputable def masked_softmax {ι : Type} [Fintype ι]
    (src : ι → ℝ) (mask : ι → Bool) : ι → FVal :=
  maskedFill (softmaxF (maskedFill (fun i => FVal.fin (src i)) mask FVal.negInf))
    mask (FVal.fin 0)

/-- The real value computed by `masked_softmax`: zero off the mask, and the
mask-restricted softmax quotient on the mask (see
`masked_softmax_eq_fin`, which shows `masked_softmax` always returns this
value wrapped in `FVal.fin`). -/
noncomputable def masked_softmaxR {ι : Type} [Fintype ι]
    (src : ι → ℝ) (mask : ι → Bool) : ι → ℝ :=
  fun i =>
    if mask i then Real.exp (src i) / (∑ j, if mask j then Real.exp (src j) else 0)
    else 0

lemma maskedFill_apply {ι : Type} (src : ι → FVal) (mask : ι → Bool) (v : FVal)
    (i : ι) : maskedFill src mask v i = if mask i then src i else v := rfl

lemma fexpR_maskedFill {ι : Type} (src : ι → ℝ) (mask : ι → Bool) (j : ι) :
    fexpR (maskedFill (fun i => FVal.fin (src i)) mask FVal.negInf j)
      = if mask j then Real.exp (src j) else 0 := by
  by_cases h : mask j <;> simp [maskedFill, fexpR, h]

lemma maskedFill_ne_nan {ι : Type} (src : ι → ℝ) (mask : ι → Bool) (j : ι) :
    maskedFill (fun i => FVal.fin (src i)) mask FVal.negInf j ≠ FVal.nan := by
  by_cases h : mask j <;> simp [maskedFill, h]

lemma maskSum_pos {ι : Type} [Fintype ι] (src : ι → ℝ) (mask : ι → Bool)
    (i : ι) (hi : mask i = true) :
    0 < ∑ j, if mask j then Real.exp (src j) else 0 := by
  have hle : ∀ j ∈ Finset.univ, (0:ℝ) ≤ if mask j then Real.exp (src j) else 0 := by
    intro j _
    by_cases h : mask j <;> simp [h, (Real.exp_pos (src j)).le]
  refine Finset.sum_pos' hle ⟨i, Finset.mem_univ i, ?_⟩
  simp [hi, Real.exp_pos]

/-- `masked_softmax` always returns a finite value, namely
`masked_softmaxR`: the second `masked_fill` pass removes every `NaN` the
softmax could produce (an all-masked row is rewritten to zeros wholesale). -/
theorem masked_softmax_eq_fin {ι : Type} [Fintype ι]
    (src : ι → ℝ) (mask : ι → Bool) (i : ι) :
    masked_softmax src mask i = FVal.fin (masked_softmaxR src mask i) := by
  by_cases hi : mask i
  · have hnan : ¬ ∃ j, maskedFill (fun k => FVal.fin (src k)) mask FVal.negInf j
        = FVal.nan := by
      rintro ⟨j, hj⟩; exact maskedFill_ne_nan src mask j hj
    have hsum : (∑ j, fexpR (maskedFill (fun k => FVal.fin (src k)) mask FVal.negInf j))
        = ∑ j, if mask j then Real.exp (src j) else 0 :=
      Finset.sum_congr rfl fun j _ => fexpR_maskedFill src mask j
    have hZ : (∑ j, fexpR (maskedFill (fun k => FVal.fin (src k)) mask FVal.negInf j))
        ≠ 0 := by
      rw [hsum]; exact (maskSum_pos src mask i hi).ne'
    rw [masked_softmax, maskedFill_apply, if_pos hi, softmaxF]
    rw [if_neg hnan, if_neg hZ, fexpR_maskedFill src mask i, if_pos hi, hsum]
    simp [masked_softmaxR, hi]
  · simp [masked_softmax, maskedFill, hi, masked_softmaxR]

/-- Whereas without the second zeroing pass an all-masked row really is
`NaN`: the intermediate softmax value on such a row is `FVal.nan`. -/
lemma softmaxF_allMasked_nan {ι : Type} [Fintype ι]
    (src : ι → ℝ) (mask : ι → Bool) (hall : ∀ j, mask j = false) (i : ι) :
    softmaxF (maskedFill (fun k => FVal.fin (src k)) mask FVal.negInf) i = FVal.nan := by
  have hnan : ¬ ∃ j, maskedFill (fun k => FVal.fin (src k)) mask FVal.negInf j
      = FVal.nan := by
    rintro ⟨j, hj⟩; exact maskedFill_ne_nan src mask j hj
  have hsum : (∑ j, fexpR (maskedFill (fun k => FVal.fin (src k)) mask FVal.negInf j))
      = 0 := by
    refine Finset.sum_eq_zero fun j _ => ?_
    rw [fexpR_maskedFill]; simp [hall j]
  simp [softmaxF, hnan, hsum]

/-- C3: for every input tensor and mask, `masked_softmax` never returns
`NaN`; in particular on a row whose mask entries are all false (a padding
row) it returns the all-zero row. -/
theorem masked_softmax_no_nan {ι : Type} [Fintype ι]
    (src : ι → ℝ) (mask : ι → Bool) (i : ι) :
    masked_softmax src mask i ≠ FVal.nan ∧
      ((∀ j, mask j = false) → masked_softmax src mask i = FVal.fin 0) := by
  constructor
  · rw [masked_softmax_eq_fin]; exact fun h => FVal.noConfusion h
  · intro hall
    rw [masked_softmax_eq_fin, masked_softmaxR]
    simp [hall i]

/-- Witness for C3 at a concrete fully-masked row. -/
theorem masked_softmax_no_nan_witness :
    masked_softmax (fun _ : Fin 2 => (37 : ℝ)) (fun _ => false) 0 = FVal.fin 0 :=
  (masked_softmax_no_nan (fun _ : Fin 2 => (37 : ℝ)) (fun _ => false) 0).2
    (fun _ => rfl)

/-!
### `to_sparse` / `to_dense` (source lines 15–22), general-mask form

A padded tensor is represented by its row-major flattening: a list of rows
aligned with the row-major flattening of the boolean mask.  `x[mask]`
(`to_sparse`) keeps the rows at `true` positions in order; `to_dense`
writes the rows of a flat tensor into the `true` positions of a zero
tensor.  The boolean-mask assignment `out[mask] = x` in the source raises
when the number of rows of `x` differs from the number of `true` entries of
the mask, hence the `Option` result.
-/

/-- `to_sparse` (source lines 15–16): boolean-mask selection `x[mask]`,
keeping masked-in rows in row-major order.  (The source requires the mask
and the tensor to have the same leading shape; the catch-all case is
unreachable under that requirement.) -/
def to_sparse {α : Type} : List Bool → List α → List α
  | true :: ms, x :: xs => x :: to_sparse ms xs
  | false :: ms, _ :: xs => to_sparse ms xs
  | _, _ => []

/-- `to_dense` (source lines 19–22): start from a zero tensor (`z` is the
zero row produced by `x.new_zeros`) and write the rows of the flat tensor
into the `true` positions of the mask (`out[mask] = x`); `none` models the
error the source raises when the row count and the mask population differ. -/
def to_dense {α : Type} (z : α) : List Bool → List α → Option (List α)
  | [], [] => some []
  | [], _ :: _ => none
  | true :: ms, x :: xs => (to_dense z ms xs).map (x :: ·)
  | true :: _, [] => none
  | false :: ms, xs => (to_dense z ms xs).map (z :: ·)

lemma to_dense_isSome {α : Type} (z : α) :
    ∀ (ms : List Bool) (xs : List α), xs.length = ms.count true →
      ∃ d, to_dense z ms xs = some d := by
  intro ms
  induction ms with
  | nil =>
    intro xs h
    cases xs with
    | nil => exact ⟨[], rfl⟩
    | cons a as => simp at h
  | cons m ms ih =>
    intro xs h
    cases m with
    | true =>
      cases xs with
      | nil => simp [List.count_cons] at h
      | cons x xs =>
        have hlen : xs.length = ms.count true := by
          simpa [List.count_cons] using h
        obtain ⟨d, hd⟩ := ih xs hlen
        exact ⟨x :: d, by simp [to_dense, hd]⟩
    | false =>
      have hlen : xs.length = ms.count true := by
        simpa [List.count_cons] using h
      obtain ⟨d, hd⟩ := ih xs hlen
      exact ⟨z :: d, by simp [to_dense, hd]⟩

lemma to_sparse_to_dense {α : Type} (z : α) :
    ∀ (ms : List Bool) (xs : List α) (d : List α),
      to_dense z ms xs = some d → to_sparse ms d = xs := by
  intro ms
  induction ms with
  | nil =>
    intro xs d h
    cases xs with
    | nil =>
      have hd : d = [] := by simpa [to_dense] using h.symm
      subst hd; cases h; rfl
    | cons a as => simp [to_dense] at h
  | cons m ms ih =>
    intro xs d h
    cases m with
    | true =>
      cases xs with
      | nil => simp [to_dense] at h
      | cons x xs =>
        simp only [to_dense, Option.map_eq_some'] at h
        obtain ⟨d', hd', rfl⟩ := h
        simpa [to_sparse] using ih xs d' hd'
    | false =>
      simp only [to_dense, Option.map_eq_some'] at h
      obtain ⟨d', hd', rfl⟩ := h
      simpa [to_sparse] using ih xs d' hd'

/-- C10: for every boolean mask and flat tensor whose row count equals the
number of `true` entries of the mask, padding with zeros (`to_dense`) and
then stripping the padding (`to_sparse`) returns the original flat tensor,
rows in their original order. -/
theorem to_sparse_to_dense_roundtrip {α : Type} (z : α)
    (ms : List Bool) (xs : List α) (h : xs.length = ms.count true) :
    (to_dense z ms xs).map (fun d => to_sparse ms d) = some xs := by
  obtain ⟨d, hd⟩ := to_dense_isSome z ms xs h
  rw [hd, Option.map_some']
  exact congrArg some (to_sparse_to_dense z ms xs d hd)

/-- Witness for C10 at a concrete mask and flat tensor. -/
theorem to_sparse_to_dense_roundtrip_witness :
    (to_dense (0 : ℕ) [true, false, true] [5, 7]).map
      (fun d => to_sparse [true, false, true] d) = some [5, 7] :=
  to_sparse_to_dense_roundtrip (0 : ℕ) [true, false, true] [5, 7] (by decide)

/-!
### Batched inputs to `forward` (source lines 54–69)

`forward` first applies `psi_1` to the two flat node-feature tensors and
then packs both sides with `to_dense_batch`.  `psi_1` is an external
component (spec §6), so its outputs — the flat embedding tensors `hs`,
`ht` — are taken as the inputs of the modelled core.  `to_dense_batch`
requires the batch vector to be sorted, so a batch is a family of sizes
`ns b` / `nt b`, and a flat tensor is indexed by the dependent pair of a
batch index and a node index inside that graph.  The fill values passed to
`to_dense_batch` (`inf` / `-inf` in the source, line 62–63) are kept as
arbitrary parameters `fillS` / `fillT` so that the theorems can show the
outputs never depend on them.
-/

/-- One batched call of the matching core, after the external `psi_1`:
per-pair node counts, the flat source/target embeddings, and the two
padding fill values. -/
structure BatchCtx (B Ns Nt d1 : ℕ) where
  ns : Fin B → ℕ
  nt : Fin B → ℕ
  hns : ∀ b, ns b ≤ Ns
  hnt : ∀ b, nt b ≤ Nt
  hs : ((b : Fin B) × Fin (ns b)) → Fin d1 → ℝ
  ht : ((b : Fin B) × Fin (nt b)) → Fin d1 → ℝ
  fillS : ℝ
  fillT : ℝ

variable {B Ns Nt d1 : ℕ}

/-- Padded source embeddings `h_s` as produced by `to_dense_batch`
(source line 62). -/
def BatchCtx.hsD (c : BatchCtx B Ns Nt d1) : Fin B → Fin Ns → Fin d1 → ℝ :=
  fun b i f => if h : i.1 < c.ns b then c.hs ⟨b, ⟨i.1, h⟩⟩ f else c.fillS

/-- Padded target embeddings `h_t` (source line 63). -/
def BatchCtx.htD (c : BatchCtx B Ns Nt d1) : Fin B → Fin Nt → Fin d1 → ℝ :=
  fun b j f => if h : j.1 < c.nt b then c.ht ⟨b, ⟨j.1, h⟩⟩ f else c.fillT

/-- Source validity mask `h_s_mask` (source line 62). -/
def BatchCtx.hsMask (c : BatchCtx B Ns Nt d1) : Fin B → Fin Ns → Bool :=
  fun b i => decide (i.1 < c.ns b)

/-- Target validity mask `h_t_mask` (source line 63). -/
def BatchCtx.htMask (c : BatchCtx B Ns Nt d1) : Fin B → Fin Nt → Bool :=
  fun b j => decide (j.1 < c.nt b)

/-- Raw similarity logits `S_hat = h_s @ h_t.transpose(-1, -2)`
(source line 67). -/
noncomputable def BatchCtx.S_hat0 (c : BatchCtx B Ns Nt d1) :
    Fin B → Fin Ns → Fin Nt → ℝ :=
  fun b i j => ∑ f, c.hsD b i f * c.htD b j f

/-- Pairwise validity mask
`S_mask = h_s_mask.unsqueeze(-1) & h_t_mask.unsqueeze(-2)` (source line 68). -/
def BatchCtx.S_mask (c : BatchCtx B Ns Nt d1) : Fin B → Fin Ns → Fin Nt → Bool :=
  fun b i j => c.hsMask b i && c.htMask b j

/-- `S_0 = masked_softmax(S_hat, S_mask, dim=-1)` (source line 69), in its
real value (`masked_softmax_eq_fin`). -/
noncomputable def BatchCtx.S_0 (c : BatchCtx B Ns Nt d1) :
    Fin B → Fin Ns → Fin Nt → ℝ :=
  fun b i j => masked_softmaxR (c.S_hat0 b i) (fun j' => c.S_mask b i j') j

/-!
### The dense refinement loop (source lines 71–87)

The per-step externals are: the second-stage embedding function `psi_2`
applied with the source and with the target connectivity (the edge data is
fixed for the whole call, so each side appears as one abstract function on
flat tensors), the two linear layers of `self.mlp` (source lines 35–39),
and the standard-normal draws of `torch.randn` (source line 74), injected
as a stream `rnd` whose step-`t` element is the step-`t` draw.
-/

/-- `to_sparse(x, h_mask)` as used in the loop (source line 77): the mask
of `to_dense_batch` selects, in row-major order, exactly the valid nodes
of each graph, so stripping the padding yields the flat tensor indexed by
the dependent node pairs. -/
def toSparseB {d : ℕ} (n : Fin B → ℕ) (hn : ∀ b, n b ≤ Ns)
    (x : Fin B → Fin Ns → Fin d → ℝ) : ((b : Fin B) × Fin (n b)) → Fin d → ℝ :=
  fun v f => x v.1 (Fin.castLE (hn v.1) v.2) f

/-- `to_dense(x, h_mask)` as used in the loop (source line 80): re-pad a
flat tensor with zeros at the padding rows. -/
def toDenseB {d : ℕ} (n : Fin B → ℕ)
    (x : ((b : Fin B) × Fin (n b)) → Fin d → ℝ) : Fin B → Fin Ns → Fin d → ℝ :=
  fun b i f => if h : i.1 < n b then x ⟨b, ⟨i.1, h⟩⟩ f else 0

/-- `self.mlp` (source lines 35–39): `Linear(e, e)`, `ReLU`,
`Linear(e, 1)`, applied to a difference vector. -/
noncomputable def mlpF {e : ℕ} (W1 : Fin e → Fin e → ℝ) (b1 : Fin e → ℝ)
    (w2 : Fin e → ℝ) (b2 : ℝ) (v : Fin e → ℝ) : ℝ :=
  (∑ f, w2 f * max (∑ g, W1 f g * v g + b1 f) 0) + b2

/-- A dense-mode call (`self.k < 1`): the batch together with the
refinement externals.  `psi2s` and `psi2t` are `self.psi_2` applied with
`edge_index_s`/`edge_attr_s` and `edge_index_t`/`edge_attr_t`
respectively; `W1, b1, w2, b2` are the parameters of `self.mlp`; `rnd t`
is the `torch.randn` draw consumed by step `t`. -/
structure DenseCtx (B Ns Nt d1 d2in d2out : ℕ) extends BatchCtx B Ns Nt d1 where
  psi2s : (((b : Fin B) × Fin (ns b)) → Fin d2in → ℝ) →
    ((b : Fin B) × Fin (ns b)) → Fin d2out → ℝ
  psi2t : (((b : Fin B) × Fin (nt b)) → Fin d2in → ℝ) →
    ((b : Fin B) × Fin (nt b)) → Fin d2out → ℝ
  W1 : Fin d2out → Fin d2out → ℝ
  b1 : Fin d2out → ℝ
  w2 : Fin d2out → ℝ
  b2 : ℝ
  rnd : ℕ → Fin B → Fin Ns → Fin d2in → ℝ
  num_steps : ℕ

variable {d2in d2out : ℕ}

/-- One iteration of the dense refinement loop (source lines 72–83),
acting on the current logits `Sh` with the random draw `r`. -/
noncomputable def DenseCtx.step (c : DenseCtx B Ns Nt d1 d2in d2out)
    (r : Fin B → Fin Ns → Fin d2in → ℝ)
    (Sh : Fin B → Fin Ns → Fin Nt → ℝ) : Fin B → Fin Ns → Fin Nt → ℝ :=
  let S := fun b i j => masked_softmaxR (Sh b i) (fun j' => c.S_mask b i j') j
  let r_t := fun b (j : Fin Nt) f => ∑ i, S b i j * r b i f
  let o_s := toDenseB c.ns (c.psi2s (toSparseB c.ns c.hns r))
  let o_t := toDenseB c.nt (c.psi2t (toSparseB c.nt c.hnt r_t))
  fun b i j =>
    Sh b i j +
      (if c.S_mask b i j then
        mlpF c.W1 c.b1 c.w2 c.b2 (fun f => o_s b i f - o_t b j f)
      else 0)

/-- The logits after `t` iterations of the loop, starting from the raw
similarity `S_hat0`; step `t` consumes the random draw `rnd t`, matching
the call order of `torch.randn` in the source. -/
noncomputable def DenseCtx.S_hatIter (c : DenseCtx B Ns Nt d1 d2in d2out) :
    ℕ → Fin B → Fin Ns → Fin Nt → ℝ
  | 0 => c.S_hat0
  | t + 1 => c.step (c.rnd t) (c.S_hatIter t)

/-- `S_L = masked_softmax(S_hat, S_mask, dim=-1)` after the loop
(source line 85), in its real value. -/
noncomputable def DenseCtx.S_L (c : DenseCtx B Ns Nt d1 d2in d2out) :
    Fin B → Fin Ns → Fin Nt → ℝ :=
  fun b i j =>
    masked_softmaxR (c.S_hatIter c.num_steps b i) (fun j' => c.S_mask b i j') j

lemma masked_softmaxR_of_mask_false {ι : Type} [Fintype ι]
    (src : ι → ℝ) (mask : ι → Bool) (i : ι) (h : mask i = false) :
    masked_softmaxR src mask i = 0 := by
  simp [masked_softmaxR, h]

lemma masked_softmaxR_filter_sum_one {ι : Type} [Fintype ι]
    (src : ι → ℝ) (mask : ι → Bool) (i0 : ι) (hi0 : mask i0 = true) :
    (∑ i ∈ Finset.univ.filter (fun i => mask i = true), masked_softmaxR src mask i)
      = 1 := by
  have hZ : (∑ j, if mask j then Real.exp (src j) else 0)
      = ∑ j ∈ Finset.univ.filter (fun j => mask j = true), Real.exp (src j) := by
    rw [Finset.sum_filter]
  have hpos := maskSum_pos src mask i0 hi0
  calc (∑ i ∈ Finset.univ.filter (fun i => mask i = true), masked_softmaxR src mask i)
      = ∑ i ∈ Finset.univ.filter (fun i => mask i = true),
          Real.exp (src i) / (∑ j, if mask j then Real.exp (src j) else 0) := by
        refine Finset.sum_congr rfl fun i hi => ?_
        rw [Finset.mem_filter] at hi
        simp [masked_softmaxR, hi.2]
    _ = (∑ i ∈ Finset.univ.filter (fun i => mask i = true), Real.exp (src i))
          / (∑ j, if mask j then Real.exp (src j) else 0) := by
        rw [Finset.sum_div]
    _ = 1 := by rw [hZ] at hpos ⊢; exact div_self hpos.ne'

variable {B Ns Nt d1 d2in d2out : ℕ}

/-- C1: in dense mode, on a valid input batch (every pair has at least one
target node), every cell of `S_0` and `S_L` at a masked position is
exactly `0`, and every row belonging to a valid source node sums to `1`
over the valid target columns (exactly, in the real-number semantics; the
floating tolerance of the spec is subsumed). -/
theorem dense_rows_stochastic (c : DenseCtx B Ns Nt d1 d2in d2out)
    (b : Fin B) (i : Fin Ns) (hnt0 : 0 < c.nt b) :
    (∀ j, c.S_mask b i j = false → c.S_0 b i j = 0 ∧ c.S_L b i j = 0) ∧
      (c.hsMask b i = true →
        (∑ j ∈ Finset.univ.filter (fun j => c.S_mask b i j = true),
            c.S_0 b i j) = 1 ∧
          (∑ j ∈ Finset.univ.filter (fun j => c.S_mask b i j = true),
            c.S_L b i j) = 1) := by
  constructor
  · intro j hj
    exact ⟨masked_softmaxR_of_mask_false _ _ j hj,
      masked_softmaxR_of_mask_false _ _ j hj⟩
  · intro hv
    have hj0 : (⟨0, lt_of_lt_of_le hnt0 (c.hnt b)⟩ : Fin Nt).1 < c.nt b := hnt0
    have hm : c.S_mask b i ⟨0, lt_of_lt_of_le hnt0 (c.hnt b)⟩ = true := by
      simp [BatchCtx.S_mask, BatchCtx.htMask, hj0, hv]
    exact ⟨masked_softmaxR_filter_sum_one _ _ _ hm,
      masked_softmaxR_filter_sum_one _ _ _ hm⟩

/-- A concrete one-pair, one-node dense call used by witnesses. -/
noncomputable def ctxC1 : DenseCtx 1 1 1 1 1 1 where
  ns := fun _ => 1
  nt := fun _ => 1
  hns := fun _ => le_refl 1
  hnt := fun _ => le_refl 1
  hs := fun _ _ => 0
  ht := fun _ _ => 0
  fillS := 5
  fillT := -5
  psi2s := fun x => x
  psi2t := fun x => x
  W1 := fun _ _ => 1
  b1 := fun _ => 0
  w2 := fun _ => 1
  b2 := 0
  rnd := fun _ _ _ _ => 0
  num_steps := 2

/-- Witness for C1 at a concrete batch. -/
theorem dense_rows_stochastic_witness :
    (∑ j ∈ Finset.univ.filter (fun j => ctxC1.S_mask 0 0 j = true),
        ctxC1.S_0 0 0 j) = 1 :=
  ((dense_rows_stochastic ctxC1 0 0 (by decide)).2 (by decide)).1

/-- C5: in dense mode with `num_steps = 0`, the returned `S_L` equals
`S_0` exactly: the loop body never runs, so both are the masked softmax of
the unrefined logits. -/
theorem dense_num_steps_zero (c : DenseCtx B Ns Nt d1 d2in d2out)
    (h0 : c.num_steps = 0) : ∀ b i j, c.S_L b i j = c.S_0 b i j := by
  intro b i j
  simp only [DenseCtx.S_L, h0, DenseCtx.S_hatIter, BatchCtx.S_0]

/-- A concrete dense call with `num_steps = 0` used by witnesses. -/
noncomputable def ctxC5 : DenseCtx 1 1 1 1 1 1 :=
  { ctxC1 with num_steps := 0 }

/-- Witness for C5 at a concrete batch. -/
theorem dense_num_steps_zero_witness : ctxC5.S_L 0 0 0 = ctxC5.S_0 0 0 0 :=
  dense_num_steps_zero ctxC5 rfl 0 0 0

/-- C2: in dense mode the refinement body runs exactly `num_steps` times
(`S_L` is the masked softmax of the `num_steps`-fold iterate), and each
iteration, in order: recomputes `S` as the masked softmax of the current
logits (visible inside the transported features below, where the current
iterate — not a cached matrix — is renormalized), consumes the fresh
step-`t` random draw `rnd t`, transports it as `r_t = Sᵀ · r_s`, strips
the padding of both random-feature tensors, re-embeds each through
`psi_2` on its own graph's connectivity and re-pads, scores every pairwise
difference with the two-layer MLP, and adds the score, zeroed at masked
pairs, into the logits. -/
theorem dense_refinement_structure (c : DenseCtx B Ns Nt d1 d2in d2out) :
    (∀ b i j, c.S_L b i j =
      masked_softmaxR (c.S_hatIter c.num_steps b i) (fun j' => c.S_mask b i j') j) ∧
      (∀ (t : ℕ) (b : Fin B) (i : Fin Ns) (j : Fin Nt),
        c.S_hatIter (t + 1) b i j =
          c.S_hatIter t b i j +
            (if c.S_mask b i j then
              mlpF c.W1 c.b1 c.w2 c.b2 (fun f =>
                toDenseB c.ns (c.psi2s (toSparseB c.ns c.hns (c.rnd t))) b i f -
                  toDenseB c.nt (c.psi2t (toSparseB c.nt c.hnt
                    (fun b' j' f' => ∑ i',
                      masked_softmaxR (c.S_hatIter t b' i')
                        (fun j'' => c.S_mask b' i' j'') j' * c.rnd t b' i' f'))) b j f)
            else 0)) :=
  ⟨fun _ _ _ => rfl, fun _ _ _ _ => rfl⟩

/-!
### The sparse variant (source lines 48–52 and 88–102)

`top_k` computes, per source node, the indices of the `k` smallest values
of `S_ij = (-x_s * x_t).sum(-1)` (KeOps `argKmin` over the target axis),
i.e. the `k` largest dot products.  It is modelled by an exact selection:
repeatedly take the first index attaining the minimum among the remaining
candidates.

Two models of the sparse values are given.  The definitions in this
section (`S_idx`, `sparseShat`, `sparseS0`) carry plain reals and treat
the `to_dense_batch` fills as arbitrary finite parameters: they are the
fill-free specialization, faithful exactly on rows that consume no
padding (a valid source row of a pair whose target count fills the padded
width), the setting of the sparse/dense agreement claim.  The extended
model `S_idxX`/`sparseShatX`/`sparseS0X` further below keeps the source's
`float('inf')`/`float('-inf')` fills (lines 62–63) as explicit `±inf`
values and is the authority wherever a row can consume padding.
-/

/-- First index of `l` (starting from the running best `b0`) attaining the
minimum score; ties keep the earlier index. -/
noncomputable def argminFrom (s : ℕ → ℝ) : ℕ → List ℕ → ℕ
  | b0, [] => b0
  | b0, j :: t => if s j < s b0 then argminFrom s j t else argminFrom s b0 t

/-- `argKmin`: the indices of the `k` smallest scores among the candidate
list, in increasing order of score, ties broken towards lower indices. -/
noncomputable def argKminList (s : ℕ → ℝ) : ℕ → List ℕ → List ℕ
  | 0, _ => []
  | _ + 1, [] => []
  | k + 1, j :: t =>
    let m := argminFrom s j t
    m :: argKminList s k ((j :: t).erase m)

lemma argminFrom_mem (s : ℕ → ℝ) :
    ∀ (l : List ℕ) (b0 : ℕ), argminFrom s b0 l ∈ b0 :: l := by
  intro l
  induction l with
  | nil => intro b0; simp [argminFrom]
  | cons j t ih =>
    intro b0
    rw [argminFrom]
    by_cases h : s j < s b0
    · rw [if_pos h]
      have := ih j
      simp only [List.mem_cons] at this ⊢
      tauto
    · rw [if_neg h]
      have := ih b0
      simp only [List.mem_cons] at this ⊢
      tauto

lemma argKminList_subset (s : ℕ → ℝ) :
    ∀ (k : ℕ) (l : List ℕ), ∀ x ∈ argKminList s k l, x ∈ l := by
  intro k
  induction k with
  | zero => intro l x hx; simp [argKminList] at hx
  | succ k ih =>
    intro l x hx
    cases l with
    | nil => simp [argKminList] at hx
    | cons j t =>
      rw [argKminList] at hx
      simp only [List.mem_cons] at hx
      rcases hx with rfl | hx
      · exact argminFrom_mem s t j
      · exact List.erase_subset _ _ (ih _ x hx)

lemma argKminList_nodup (s : ℕ → ℝ) :
    ∀ (k : ℕ) (l : List ℕ), l.Nodup → (argKminList s k l).Nodup := by
  intro k
  induction k with
  | zero => intro l _; simp [argKminList]
  | succ k ih =>
    intro l hl
    cases l with
    | nil => simp [argKminList]
    | cons j t =>
      rw [argKminList]
      refine List.nodup_cons.mpr ⟨?_, ih _ (hl.erase _)⟩
      intro hmem
      exact (hl.not_mem_erase) (argKminList_subset s k _ _ hmem)

lemma argKminList_length (s : ℕ → ℝ) :
    ∀ (k : ℕ) (l : List ℕ), k ≤ l.length → (argKminList s k l).length = k := by
  intro k
  induction k with
  | zero => intro l _; simp [argKminList]
  | succ k ih =>
    intro l hk
    cases l with
    | nil => simp at hk
    | cons j t =>
      rw [argKminList]
      have hmem : argminFrom s j t ∈ j :: t := argminFrom_mem s t j
      have hlen : ((j :: t).erase (argminFrom s j t)).length = t.length := by
        rw [List.length_erase_of_mem hmem]
        simp
      simp only [List.length_cons]
      rw [ih _ (by rw [hlen]; simpa using hk)]

/-- Gathered target row lookup used by `torch.gather` (source line 94) and
by the candidate scores of `top_k`: the padded target embedding at an
integer index. -/
def BatchCtx.htAt (c : BatchCtx B Ns Nt d1) (b : Fin B) (m : ℕ)
    (f : Fin d1) : ℝ :=
  if h : m < Nt then c.htD b ⟨m, h⟩ f else 0

/-- `S_idx = self.top_k(h_s, h_t)` (source lines 48–52 and 90): per source
node, `argKmin` of the negated dot-product scores over all target columns. -/
noncomputable def BatchCtx.S_idx (c : BatchCtx B Ns Nt d1) (k : ℕ) :
    Fin B → Fin Ns → List ℕ :=
  fun b i =>
    argKminList (fun m => -(∑ f, c.hsD b i f * c.htAt b m f)) k (List.range Nt)

/-- The gathered sparse logits
`S_hat = (tmp_s * torch.gather(tmp_t, 2, index)).sum(dim=-1)`
(source lines 91–94). -/
noncomputable def BatchCtx.sparseShat (c : BatchCtx B Ns Nt d1) (k : ℕ) :
    Fin B → Fin Ns → Fin k → ℝ :=
  fun b i j => ∑ f, c.hsD b i f * c.htAt b ((c.S_idx k b i).getD j.1 0) f

/-- Plain softmax over a row of finite reals (`S_hat.softmax(dim=-1)`,
source line 95 — the sparse path applies no mask). -/
noncomputable def softmaxR {ι : Type} [Fintype ι] (x : ι → ℝ) : ι → ℝ :=
  fun i => Real.exp (x i) / ∑ j, Real.exp (x j)

/-- `S_0` of the sparse path (source line 95). -/
noncomputable def BatchCtx.sparseS0 (c : BatchCtx B Ns Nt d1) (k : ℕ) :
    Fin B → Fin Ns → Fin k → ℝ :=
  fun b i => softmaxR (c.sparseShat k b i)

/-- The sparse refinement loop (source lines 97–98): it iterates
`num_steps` times and each iteration leaves the state unchanged. -/
def noOpLoop {α : Type} : ℕ → α → α
  | 0, s => s
  | n + 1, s => noOpLoop n s

/-- The sparse branch of `forward` (source lines 88–102): compute `S_idx`,
the gathered logits and their softmax `S_0`, run the no-op loop, set
`S_L`, and return the triple `(S_0, S_L, S_idx)`. -/
noncomputable def BatchCtx.sparseForward (c : BatchCtx B Ns Nt d1)
    (k num_steps : ℕ) :
    (Fin B → Fin Ns → Fin k → ℝ) × (Fin B → Fin Ns → Fin k → ℝ) ×
      (Fin B → Fin Ns → List ℕ) :=
  (c.sparseS0 k, noOpLoop num_steps (c.sparseS0 k), c.S_idx k)

lemma noOpLoop_eq {α : Type} : ∀ (n : ℕ) (s : α), noOpLoop n s = s := by
  intro n
  induction n with
  | zero => intro s; rfl
  | succ n ih => intro s; rw [noOpLoop, ih]

/-- C4: in sparse mode the refinement loop runs the configured number of
steps but performs no update, so for every step count the call returns
exactly the triple `(S_0, S_0, S_idx)` — `S_L` is identical to `S_0`. -/
theorem sparse_loop_no_op (c : BatchCtx B Ns Nt d1) (k num_steps : ℕ) :
    c.sparseForward k num_steps = (c.sparseS0 k, c.sparseS0 k, c.S_idx k) := by
  rw [BatchCtx.sparseForward, noOpLoop_eq]

lemma sum_univ_getD (g : ℕ → ℝ) :
    ∀ (l : List ℕ), (∑ j : Fin l.length, g (l.getD j.1 0)) = (l.map g).sum := by
  intro l
  induction l with
  | nil => simp
  | cons x xs ih =>
    rw [List.length_cons, Fin.sum_univ_succ]
    simp only [List.map_cons, List.sum_cons]
    exact congrArg (g x + ·) ih

lemma range_map_sum (g : ℕ → ℝ) :
    ∀ n : ℕ, ((List.range n).map g).sum = ∑ j ∈ Finset.range n, g j := by
  intro n
  induction n with
  | zero => simp
  | succ n ih => rw [List.range_succ, List.map_append, List.sum_append,
      Finset.sum_range_succ, ih]; simp

lemma htAt_dot (c : BatchCtx B Ns Nt d1) (b : Fin B) (i : Fin Ns)
    {m : ℕ} (hm : m < Nt) :
    (∑ f, c.hsD b i f * c.htAt b m f) = c.S_hat0 b i ⟨m, hm⟩ := by
  rw [BatchCtx.S_hat0]
  refine Finset.sum_congr rfl fun f _ => ?_
  rw [BatchCtx.htAt, dif_pos hm]

lemma S_idx_perm_range (c : BatchCtx B Ns Nt d1) (b : Fin B) (i : Fin Ns) :
    List.Perm (c.S_idx Nt b i) (List.range Nt) := by
  have hsub : c.S_idx Nt b i ⊆ List.range Nt := fun x hx =>
    argKminList_subset _ Nt _ x hx
  have hnd : (c.S_idx Nt b i).Nodup :=
    argKminList_nodup _ Nt _ (List.nodup_range Nt)
  have hlen : (c.S_idx Nt b i).length = Nt :=
    argKminList_length _ Nt _ (by simp)
  exact (List.subperm_of_subset hnd hsub).perm_of_length_le
    (by rw [hlen, List.length_range])

/-- C7: when `k` equals the full target column count, the sparse-mode
`S_0`, read through its candidate indices `S_idx`, equals the
corresponding entries of the dense-mode `S_0` on the same inputs (for a
valid source row of a pair whose target side fills the padded width, so
that the dense mask is full and the two normalizers range over the same
columns). -/
theorem sparse_dense_agree_init (c : BatchCtx B Ns Nt d1) (b : Fin B)
    (i : Fin Ns) (hv : c.hsMask b i = true) (hfull : c.nt b = Nt)
    (j' : Fin Nt) :
    ∃ h : (c.S_idx Nt b i).getD j'.1 0 < Nt,
      c.sparseS0 Nt b i j' = c.S_0 b i ⟨(c.S_idx Nt b i).getD j'.1 0, h⟩ := by
  have hlen : (c.S_idx Nt b i).length = Nt :=
    argKminList_length _ Nt _ (by simp)
  have hj'len : j'.1 < (c.S_idx Nt b i).length := by rw [hlen]; exact j'.2
  have hget : (c.S_idx Nt b i).getD j'.1 0 ∈ c.S_idx Nt b i := by
    rw [List.getD_eq_get _ _ hj'len]
    exact List.get_mem _ _ _
  have hm : (c.S_idx Nt b i).getD j'.1 0 < Nt := by
    have := argKminList_subset _ Nt _ _ hget
    simpa using this
  refine ⟨hm, ?_⟩
  have hmask : ∀ j : Fin Nt, c.S_mask b i j = true := by
    intro j
    have hj : j.1 < c.nt b := by rw [hfull]; exact j.2
    simp [BatchCtx.S_mask, BatchCtx.htMask, hj, hv]
  -- the shared denominator: over the gathered candidates on the sparse
  -- side, over all (full-mask) columns on the dense side
  have hshat : ∀ j'' : Fin Nt, ∀ hm'' : (c.S_idx Nt b i).getD j''.1 0 < Nt,
      c.sparseShat Nt b i j''
        = c.S_hat0 b i ⟨(c.S_idx Nt b i).getD j''.1 0, hm''⟩ := by
    intro j'' hm''
    exact htAt_dot c b i hm''
  have hmem : ∀ j'' : Fin Nt, (c.S_idx Nt b i).getD j''.1 0 < Nt := by
    intro j''
    have hj''len : j''.1 < (c.S_idx Nt b i).length := by rw [hlen]; exact j''.2
    have : (c.S_idx Nt b i).getD j''.1 0 ∈ c.S_idx Nt b i := by
      rw [List.getD_eq_get _ _ hj''len]
      exact List.get_mem _ _ _
    simpa using argKminList_subset _ Nt _ _ this
  have hden : (∑ j'' : Fin Nt, Real.exp (c.sparseShat Nt b i j''))
      = ∑ j : Fin Nt, Real.exp (c.S_hat0 b i j) := by
    have h1 : (∑ j'' : Fin Nt, Real.exp (c.sparseShat Nt b i j''))
        = ∑ j'' : Fin Nt,
            (fun m => Real.exp (∑ f, c.hsD b i f * c.htAt b m f))
              ((c.S_idx Nt b i).getD j''.1 0) := by
      refine Finset.sum_congr rfl fun j'' _ => ?_
      rw [BatchCtx.sparseShat]
    have h2 := sum_univ_getD
      (fun m => Real.exp (∑ f, c.hsD b i f * c.htAt b m f)) (c.S_idx Nt b i)
    have h3 : ((c.S_idx Nt b i).map
          (fun m => Real.exp (∑ f, c.hsD b i f * c.htAt b m f))).sum
        = ((List.range Nt).map
          (fun m => Real.exp (∑ f, c.hsD b i f * c.htAt b m f))).sum :=
      List.Perm.sum_eq (List.Perm.map _ (S_idx_perm_range c b i))
    rw [h1]
    have hcast : (∑ j'' : Fin Nt,
          (fun m => Real.exp (∑ f, c.hsD b i f * c.htAt b m f))
            ((c.S_idx Nt b i).getD j''.1 0))
        = ∑ j'' : Fin (c.S_idx Nt b i).length,
          (fun m => Real.exp (∑ f, c.hsD b i f * c.htAt b m f))
            ((c.S_idx Nt b i).getD j''.1 0) :=
      (Fin.sum_congr' (fun j'' => Real.exp
        (∑ f, c.hsD b i f * c.htAt b ((c.S_idx Nt b i).getD j''.1 0) f)) hlen).symm
    rw [hcast, h2, h3, range_map_sum, ← Fin.sum_univ_eq_sum_range]
    refine Finset.sum_congr rfl fun j _ => ?_
    have := htAt_dot c b i j.2
    simp only [this]
  rw [BatchCtx.sparseS0, softmaxR, BatchCtx.S_0, masked_softmaxR,
    if_pos (hmask _), hshat j' hm, hden]
  have hZ : (∑ j, if c.S_mask b i j then Real.exp (c.S_hat0 b i j) else 0)
      = ∑ j : Fin Nt, Real.exp (c.S_hat0 b i j) :=
    Finset.sum_congr rfl fun j _ => by rw [if_pos (hmask j)]
  rw [hZ]

/-- A concrete batch (one pair, two source nodes, two target columns) used
by the C7 witness. -/
noncomputable def ctxC7 : BatchCtx 1 2 2 1 where
  ns := fun _ => 2
  nt := fun _ => 2
  hns := fun _ => le_refl 2
  hnt := fun _ => le_refl 2
  hs := fun v _ => if v.2.1 = 0 then 1 else 2
  ht := fun v _ => if v.2.1 = 0 then 2 else 1
  fillS := 9
  fillT := -9

/-- Witness for C7 at a concrete batch with `k = Nt = 2`. -/
theorem sparse_dense_agree_init_witness :
    ∃ h : (ctxC7.S_idx 2 0 1).getD 0 0 < 2,
      ctxC7.sparseS0 2 0 1 0 = ctxC7.S_0 0 1 ⟨(ctxC7.S_idx 2 0 1).getD 0 0, h⟩ :=
  sparse_dense_agree_init ctxC7 0 1 (by decide) rfl 0

lemma masked_softmaxR_congr {ι : Type} [Fintype ι] {src src' : ι → ℝ}
    (mask : ι → Bool) (h : ∀ i, mask i = true → src i = src' i) (i : ι) :
    masked_softmaxR src mask i = masked_softmaxR src' mask i := by
  have hZ : (∑ j, if mask j then Real.exp (src j) else 0)
      = ∑ j, if mask j then Real.exp (src' j) else 0 := by
    refine Finset.sum_congr rfl fun j _ => ?_
    by_cases hj : mask j
    · simp [hj, h j hj]
    · simp [hj]
  by_cases hi : mask i
  · simp [masked_softmaxR, hi, h i hi, hZ]
  · simp [masked_softmaxR, hi]

lemma BatchCtx.hsD_valid (c : BatchCtx B Ns Nt d1) {b : Fin B} {i : Fin Ns}
    (h : i.1 < c.ns b) (f : Fin d1) : c.hsD b i f = c.hs ⟨b, ⟨i.1, h⟩⟩ f :=
  dif_pos h

lemma BatchCtx.htD_valid (c : BatchCtx B Ns Nt d1) {b : Fin B} {j : Fin Nt}
    (h : j.1 < c.nt b) (f : Fin d1) : c.htD b j f = c.ht ⟨b, ⟨j.1, h⟩⟩ f :=
  dif_pos h

/-- C8: masking isolation.  Take a batched dense call `c` and a
single-pair dense call `c1` holding only pair `b` of the batch: same
sizes, the same first-stage embeddings, second-stage embedding functions
that agree on that pair's graphs (the external `psi_2` is a per-graph
message-passing function, so its restriction to one graph of the batch is
the function the solo call uses), the same MLP parameters, and random
draws agreeing on that pair's source rows.  Then all correspondence
entries of pair `b` — `S_0` and `S_L` — computed in the batch equal those
of the solo call: neither the padding fill values (arbitrary and unrelated
in `c` and `c1`) nor the other pairs of the batch affect them. -/
theorem dense_masking_isolation
    (c : DenseCtx B Ns Nt d1 d2in d2out) (c1 : DenseCtx 1 Ns Nt d1 d2in d2out)
    (b : Fin B)
    (hsz : c1.ns 0 = c.ns b) (htz : c1.nt 0 = c.nt b)
    (hhs : ∀ (m : ℕ) (h1 : m < c1.ns 0) (h : m < c.ns b) (f : Fin d1),
      c1.hs ⟨0, ⟨m, h1⟩⟩ f = c.hs ⟨b, ⟨m, h⟩⟩ f)
    (hht : ∀ (m : ℕ) (h1 : m < c1.nt 0) (h : m < c.nt b) (f : Fin d1),
      c1.ht ⟨0, ⟨m, h1⟩⟩ f = c.ht ⟨b, ⟨m, h⟩⟩ f)
    (hpsi2s : ∀ (x : ((b' : Fin B) × Fin (c.ns b')) → Fin d2in → ℝ)
      (x1 : ((b'' : Fin 1) × Fin (c1.ns b'')) → Fin d2in → ℝ),
      (∀ (m : ℕ) (h1 : m < c1.ns 0) (h : m < c.ns b) (f : Fin d2in),
        x1 ⟨0, ⟨m, h1⟩⟩ f = x ⟨b, ⟨m, h⟩⟩ f) →
      ∀ (m : ℕ) (h1 : m < c1.ns 0) (h : m < c.ns b) (f : Fin d2out),
        c1.psi2s x1 ⟨0, ⟨m, h1⟩⟩ f = c.psi2s x ⟨b, ⟨m, h⟩⟩ f)
    (hpsi2t : ∀ (x : ((b' : Fin B) × Fin (c.nt b')) → Fin d2in → ℝ)
      (x1 : ((b'' : Fin 1) × Fin (c1.nt b'')) → Fin d2in → ℝ),
      (∀ (m : ℕ) (h1 : m < c1.nt 0) (h : m < c.nt b) (f : Fin d2in),
        x1 ⟨0, ⟨m, h1⟩⟩ f = x ⟨b, ⟨m, h⟩⟩ f) →
      ∀ (m : ℕ) (h1 : m < c1.nt 0) (h : m < c.nt b) (f : Fin d2out),
        c1.psi2t x1 ⟨0, ⟨m, h1⟩⟩ f = c.psi2t x ⟨b, ⟨m, h⟩⟩ f)
    (hW1 : c1.W1 = c.W1) (hb1 : c1.b1 = c.b1) (hw2 : c1.w2 = c.w2)
    (hb2 : c1.b2 = c.b2)
    (hrnd : ∀ (t : ℕ) (i : Fin Ns) (f : Fin d2in), i.1 < c.ns b →
      c1.rnd t 0 i f = c.rnd t b i f)
    (hsteps : c1.num_steps = c.num_steps) :
    ∀ (i : Fin Ns) (j : Fin Nt),
      c1.S_0 0 i j = c.S_0 b i j ∧ c1.S_L 0 i j = c.S_L b i j := by
  have hmS : ∀ i : Fin Ns, c1.hsMask 0 i = c.hsMask b i := by
    intro i; simp only [BatchCtx.hsMask, hsz]
  have hmT : ∀ j : Fin Nt, c1.htMask 0 j = c.htMask b j := by
    intro j; simp only [BatchCtx.htMask, htz]
  have hmask : ∀ (i : Fin Ns) (j : Fin Nt), c1.S_mask 0 i j = c.S_mask b i j := by
    intro i j; simp only [BatchCtx.S_mask, hmS, hmT]
  have hmaskrow : ∀ i : Fin Ns,
      (fun j' => c1.S_mask 0 i j') = (fun j' => c.S_mask b i j') := by
    intro i; funext j'; exact hmask i j'
  have hmask_invalid : ∀ (i : Fin Ns) (j : Fin Nt), ¬ i.1 < c.ns b →
      c.S_mask b i j = false := by
    intro i j hi
    simp [BatchCtx.S_mask, BatchCtx.hsMask, hi]
  -- agreement of the raw logits on pair `b`'s valid block
  have hbase : ∀ (i : Fin Ns) (j : Fin Nt), i.1 < c.ns b → j.1 < c.nt b →
      c1.S_hat0 0 i j = c.S_hat0 b i j := by
    intro i j hi hj
    have hi1 : i.1 < c1.ns 0 := by rw [hsz]; exact hi
    have hj1 : j.1 < c1.nt 0 := by rw [htz]; exact hj
    refine Finset.sum_congr rfl fun f _ => ?_
    rw [c1.hsD_valid hi1, c.hsD_valid hi, c1.htD_valid hj1, c.htD_valid hj,
      hhs i.1 hi1 hi f, hht j.1 hj1 hj f]
  -- the iterated logits agree on pair `b`'s valid block at every step
  have key : ∀ t : ℕ, ∀ (i : Fin Ns) (j : Fin Nt), i.1 < c.ns b → j.1 < c.nt b →
      c1.S_hatIter t 0 i j = c.S_hatIter t b i j := by
    intro t
    induction t with
    | zero => exact hbase
    | succ t ih =>
      intro i j hi hj
      have hi1 : i.1 < c1.ns 0 := by rw [hsz]; exact hi
      have hj1 : j.1 < c1.nt 0 := by rw [htz]; exact hj
      -- the per-row softmax values agree on valid source rows, and vanish
      -- on invalid source rows, in both runs
      have hS : ∀ (i' : Fin Ns) (j' : Fin Nt), j'.1 < c.nt b →
          masked_softmaxR (c1.S_hatIter t 0 i') (fun j'' => c1.S_mask 0 i' j'') j'
            = masked_softmaxR (c.S_hatIter t b i') (fun j'' => c.S_mask b i' j'') j' := by
        intro i' j' _
        by_cases hi' : i'.1 < c.ns b
        · rw [hmaskrow i']
          refine masked_softmaxR_congr _ ?_ j'
          intro j'' hj''
          have hj''v : j''.1 < c.nt b := by
            have := hj''
            simp only [BatchCtx.S_mask, BatchCtx.htMask, Bool.and_eq_true,
              decide_eq_true_eq] at this
            exact this.2
          exact ih i' j'' hi' hj''v
        · rw [masked_softmaxR_of_mask_false _ _ j'
              (by rw [hmask i' j']; exact hmask_invalid i' j' hi'),
            masked_softmaxR_of_mask_false _ _ j' (hmask_invalid i' j' hi')]
      -- the padded `psi_2` outputs agree at pair `b`'s valid rows
      have ho_s : ∀ (f : Fin d2out),
          c1.psi2s (toSparseB c1.ns c1.hns (c1.rnd t)) ⟨0, ⟨i.1, hi1⟩⟩ f
            = c.psi2s (toSparseB c.ns c.hns (c.rnd t)) ⟨b, ⟨i.1, hi⟩⟩ f := by
        intro f
        refine hpsi2s _ _ ?_ i.1 hi1 hi f
        intro m h1 h ff
        simp only [toSparseB]
        exact hrnd t ⟨m, lt_of_lt_of_le h (c.hns b)⟩ ff h
      have ho_t : ∀ (f : Fin d2out),
          c1.psi2t (toSparseB c1.nt c1.hnt
              (fun b' j' f' => ∑ i',
                masked_softmaxR (c1.S_hatIter t b' i')
                  (fun j'' => c1.S_mask b' i' j'') j' * c1.rnd t b' i' f'))
            ⟨0, ⟨j.1, hj1⟩⟩ f
            = c.psi2t (toSparseB c.nt c.hnt
              (fun b' j' f' => ∑ i',
                masked_softmaxR (c.S_hatIter t b' i')
                  (fun j'' => c.S_mask b' i' j'') j' * c.rnd t b' i' f'))
            ⟨b, ⟨j.1, hj⟩⟩ f := by
        intro f
        refine hpsi2t _ _ ?_ j.1 hj1 hj f
        intro m h1 h ff
        simp only [toSparseB]
        refine Finset.sum_congr rfl fun i' _ => ?_
        have hm : (Fin.castLE (c1.hnt 0) (⟨m, h1⟩ : Fin (c1.nt 0))).1 < c.nt b := h
        by_cases hi' : i'.1 < c.ns b
        · rw [hS i' _ hm, hrnd t i' ff hi']
          rfl
        · rw [masked_softmaxR_of_mask_false _ _ _ (hmask_invalid i' _ hi'),
            masked_softmaxR_of_mask_false _ _
              (Fin.castLE (c1.hnt 0) (⟨m, h1⟩ : Fin (c1.nt 0)))
              (by rw [hmask i' _]; exact hmask_invalid i' _ hi')]
          simp
      -- assemble one step
      show c1.step (c1.rnd t) (c1.S_hatIter t) 0 i j
        = c.step (c.rnd t) (c.S_hatIter t) b i j
      simp only [DenseCtx.step]
      rw [ih i j hi hj, hmask i j]
      by_cases hm : c.S_mask b i j = true
      · rw [if_pos hm, if_pos hm, hW1, hb1, hw2, hb2]
        have harg : (fun f => toDenseB c1.ns
              (c1.psi2s (toSparseB c1.ns c1.hns (c1.rnd t))) 0 i f -
              toDenseB c1.nt (c1.psi2t (toSparseB c1.nt c1.hnt
                (fun b' j' f' => ∑ i',
                  masked_softmaxR (c1.S_hatIter t b' i')
                    (fun j'' => c1.S_mask b' i' j'') j' * c1.rnd t b' i' f')))
                0 j f)
            = (fun f => toDenseB c.ns
              (c.psi2s (toSparseB c.ns c.hns (c.rnd t))) b i f -
              toDenseB c.nt (c.psi2t (toSparseB c.nt c.hnt
                (fun b' j' f' => ∑ i',
                  masked_softmaxR (c.S_hatIter t b' i')
                    (fun j'' => c.S_mask b' i' j'') j' * c.rnd t b' i' f')))
                b j f) := by
          funext f
          rw [toDenseB, toDenseB, toDenseB, toDenseB,
            dif_pos hi1, dif_pos hi, dif_pos hj1, dif_pos hj,
            ho_s f, ho_t f]
        rw [harg]
      · rw [if_neg hm, if_neg hm]
  -- conclude for `S_0` and `S_L`
  have hfinal : ∀ (t : ℕ) (i : Fin Ns) (j : Fin Nt),
      masked_softmaxR (c1.S_hatIter t 0 i) (fun j' => c1.S_mask 0 i j') j
        = masked_softmaxR (c.S_hatIter t b i) (fun j' => c.S_mask b i j') j := by
    intro t i j
    by_cases hi : i.1 < c.ns b
    · rw [hmaskrow i]
      refine masked_softmaxR_congr _ ?_ j
      intro j' hj'
      have hj'v : j'.1 < c.nt b := by
        simp only [BatchCtx.S_mask, BatchCtx.htMask, Bool.and_eq_true,
          decide_eq_true_eq] at hj'
        exact hj'.2
      exact key t i j' hi hj'v
    · rw [masked_softmaxR_of_mask_false _ _ j
          (by rw [hmask i j]; exact hmask_invalid i j hi),
        masked_softmaxR_of_mask_false _ _ j (hmask_invalid i j hi)]
  intro i j
  refine ⟨hfinal 0 i j, ?_⟩
  show masked_softmaxR (c1.S_hatIter c1.num_steps 0 i) _ j = _
  rw [hsteps]
  exact hfinal c.num_steps i j

/-- A concrete two-pair batch used by the C8 witness. -/
noncomputable def ctxC8batch : DenseCtx 2 1 1 1 1 1 where
  ns := fun _ => 1
  nt := fun _ => 1
  hns := fun _ => le_refl 1
  hnt := fun _ => le_refl 1
  hs := fun _ _ => 1
  ht := fun _ _ => 1
  fillS := 7
  fillT := -7
  psi2s := fun _ _ _ => 0
  psi2t := fun _ _ _ => 0
  W1 := fun _ _ => 1
  b1 := fun _ => 0
  w2 := fun _ => 1
  b2 := 0
  rnd := fun _ _ _ _ => 0
  num_steps := 1

/-- The second pair of `ctxC8batch` run alone, with different padding
fill values. -/
noncomputable def ctxC8solo : DenseCtx 1 1 1 1 1 1 where
  ns := fun _ => 1
  nt := fun _ => 1
  hns := fun _ => le_refl 1
  hnt := fun _ => le_refl 1
  hs := fun _ _ => 1
  ht := fun _ _ => 1
  fillS := 2
  fillT := -3
  psi2s := fun _ _ _ => 0
  psi2t := fun _ _ _ => 0
  W1 := fun _ _ => 1
  b1 := fun _ => 0
  w2 := fun _ => 1
  b2 := 0
  rnd := fun _ _ _ _ => 0
  num_steps := 1

/-- Witness for C8: pair `1` of the concrete batch agrees with its solo
run. -/
theorem dense_masking_isolation_witness :
    ctxC8solo.S_0 0 0 0 = ctxC8batch.S_0 1 0 0 ∧
      ctxC8solo.S_L 0 0 0 = ctxC8batch.S_L 1 0 0 :=
  dense_masking_isolation ctxC8batch ctxC8solo 1 rfl rfl
    (fun _ _ _ _ => rfl) (fun _ _ _ _ => rfl)
    (fun _ _ _ _ _ _ _ => rfl) (fun _ _ _ _ _ _ _ => rfl)
    rfl rfl rfl rfl (fun _ _ _ _ => rfl) rfl 0 0

/-!
### The constructor (source lines 26–41)

`DGMC.__init__` stores its five arguments and builds
`self.mlp = Seq(Lin(psi_2.out_channels, psi_2.out_channels), ReLU(),
Lin(psi_2.out_channels, 1))`.  Only the declared channel widths matter for
the dimension-checking claim, so the externals are modelled by their
declared widths.
-/

/-- The declared widths of an embedding network (`in_channels`,
`out_channels` attributes read by the constructor and `forward`). -/
structure EmbedDecl where
  in_channels : ℕ
  out_channels : ℕ

/-- The declared shape of a `torch.nn.Linear` layer. -/
structure LinearDecl where
  in_features : ℕ
  out_features : ℕ

/-- The two linear layers of `self.mlp` (the `ReLU` between them has no
shape). -/
structure MLPDecl where
  lin1 : LinearDecl
  lin2 : LinearDecl

/-- The state a constructed `DGMC` module holds (source lines 26–41). -/
structure DGMCDecl where
  psi_1 : EmbedDecl
  psi_2 : EmbedDecl
  num_steps : ℕ
  k : ℤ
  detach : Bool
  mlp : MLPDecl

/-- `DGMC.__init__` (source lines 26–41): store the arguments and build
the scorer from `psi_2.out_channels`.  The constructor is a total
function: no validation of any declared width occurs and no code path
raises. -/
def DGMC_init (psi_1 psi_2 : EmbedDecl) (num_steps : ℕ) (k : ℤ)
    (detach : Bool) : DGMCDecl :=
  { psi_1 := psi_1
    psi_2 := psi_2
    num_steps := num_steps
    k := k
    detach := detach
    mlp :=
      { lin1 := ⟨psi_2.out_channels, psi_2.out_channels⟩
        lin2 := ⟨psi_2.out_channels, 1⟩ } }

/-- C9 counterexample: construction does not fail on mismatched declared
widths.  With `psi_1` declaring output width `5` and `psi_2` declaring
input width `7` — widths that never line up anywhere — the constructor
returns normally (the full constructed state is exhibited), contradicting
the claim that an inconsistent configuration fails at construction time. -/
theorem DGMC_init_total_counterexample :
    DGMC_init ⟨3, 5⟩ ⟨7, 4⟩ 10 (-1) false
        = { psi_1 := ⟨3, 5⟩, psi_2 := ⟨7, 4⟩, num_steps := 10, k := -1,
            detach := false, mlp := ⟨⟨4, 4⟩, ⟨4, 1⟩⟩ } ∧
      (5 : ℕ) ≠ 7 :=
  ⟨rfl, by decide⟩

/-- C9 amended: the constructor never fails; instead it derives the
scorer's widths from `psi_2.out_channels`, so a scorer/`psi_2` width
mismatch is unrepresentable in a constructed module, and it performs no
check relating `psi_1`'s and `psi_2`'s declared widths (any such
mismatch would surface only at first use). -/
theorem DGMC_init_derives_mlp_widths (psi_1 psi_2 : EmbedDecl)
    (num_steps : ℕ) (k : ℤ) (detach : Bool) :
    (DGMC_init psi_1 psi_2 num_steps k detach).mlp.lin1.in_features
        = psi_2.out_channels ∧
      (DGMC_init psi_1 psi_2 num_steps k detach).mlp.lin1.out_features
        = psi_2.out_channels ∧
      (DGMC_init psi_1 psi_2 num_steps k detach).mlp.lin2.in_features
        = psi_2.out_channels ∧
      (DGMC_init psi_1 psi_2 num_steps k detach).mlp.lin2.out_features = 1 :=
  ⟨rfl, rfl, rfl, rfl⟩

/-!
### The sparse branch with explicit `±inf` fills

In the sparse branch the `float('inf')`/`float('-inf')` padding rows of
`h_s`/`h_t` (source lines 62–63) are consumed with no mask: `top_k` scores
every padded target column, `torch.gather` can fetch a padded column, and
line 95 applies a plain `softmax`.  The model below keeps those values as
explicit extended floats, following IEEE arithmetic: `0 · ±∞ = NaN`,
`∞ − ∞ = NaN`, `NaN` absorbs, and `NaN` compares false.
-/

/-- Extended float values of the sparse branch: a finite real, either
infinity, or `NaN`. -/
inductive XF where
  | fin (x : ℝ)
  | posInf
  | negInf
  | nan

/-- IEEE negation (`-x_s` inside `top_k`, source line 51). -/
def XF.neg : XF → XF
  | XF.fin x => XF.fin (-x)
  | XF.posInf => XF.negInf
  | XF.negInf => XF.posInf
  | XF.nan => XF.nan

/-- IEEE multiplication: sign rules for infinities, `0 · ±∞ = NaN`, and
`NaN` absorbing. -/
noncomputable def XF.mul : XF → XF → XF
  | XF.fin a, XF.fin b => XF.fin (a * b)
  | XF.fin a, XF.posInf =>
    if 0 < a then XF.posInf else if a < 0 then XF.negInf else XF.nan
  | XF.fin a, XF.negInf =>
    if 0 < a then XF.negInf else if a < 0 then XF.posInf else XF.nan
  | XF.posInf, XF.fin b =>
    if 0 < b then XF.posInf else if b < 0 then XF.negInf else XF.nan
  | XF.negInf, XF.fin b =>
    if 0 < b then XF.negInf else if b < 0 then XF.posInf else XF.nan
  | XF.posInf, XF.posInf => XF.posInf
  | XF.posInf, XF.negInf => XF.negInf
  | XF.negInf, XF.posInf => XF.negInf
  | XF.negInf, XF.negInf => XF.posInf
  | _, _ => XF.nan

/-- IEEE addition: `∞ + (−∞) = NaN`, `NaN` absorbing. -/
def XF.add : XF → XF → XF
  | XF.fin a, XF.fin b => XF.fin (a + b)
  | XF.fin _, XF.posInf => XF.posInf
  | XF.posInf, XF.fin _ => XF.posInf
  | XF.fin _, XF.negInf => XF.negInf
  | XF.negInf, XF.fin _ => XF.negInf
  | XF.posInf, XF.posInf => XF.posInf
  | XF.negInf, XF.negInf => XF.negInf
  | XF.posInf, XF.negInf => XF.nan
  | XF.negInf, XF.posInf => XF.nan
  | _, _ => XF.nan

/-- Sum of a list of extended floats (a `.sum(dim=-1)` reduction). -/
def xsum : List XF → XF
  | [] => XF.fin 0
  | v :: t => XF.add v (xsum t)

/-- IEEE strict order: `−∞ <` finite `< +∞`; `NaN` compares false with
everything. -/
def XF.Lt : XF → XF → Prop
  | XF.fin a, XF.fin b => a < b
  | XF.fin _, XF.posInf => True
  | XF.negInf, XF.fin _ => True
  | XF.negInf, XF.posInf => True
  | _, _ => False

/-- `argminFrom` over extended-float scores (first index attaining the
minimum; an index never displaces the running best on an incomparable —
`NaN` — score). -/
noncomputable def argminFromX (s : ℕ → XF) : ℕ → List ℕ → ℕ
  | b0, [] => b0
  | b0, j :: t => if XF.Lt (s j) (s b0) then argminFromX s j t
    else argminFromX s b0 t

/-- `argKmin` over extended-float scores. -/
noncomputable def argKminListX (s : ℕ → XF) : ℕ → List ℕ → List ℕ
  | 0, _ => []
  | _ + 1, [] => []
  | k + 1, j :: t =>
    argminFromX s j t :: argKminListX s k ((j :: t).erase (argminFromX s j t))

lemma argminFromX_mem (s : ℕ → XF) :
    ∀ (l : List ℕ) (b0 : ℕ), argminFromX s b0 l ∈ b0 :: l := by
  intro l
  induction l with
  | nil => intro b0; simp [argminFromX]
  | cons j t ih =>
    intro b0
    rw [argminFromX]
    by_cases h : XF.Lt (s j) (s b0)
    · rw [if_pos h]
      have := ih j
      simp only [List.mem_cons] at this ⊢
      tauto
    · rw [if_neg h]
      have := ih b0
      simp only [List.mem_cons] at this ⊢
      tauto

lemma argKminListX_subset (s : ℕ → XF) :
    ∀ (k : ℕ) (l : List ℕ), ∀ x ∈ argKminListX s k l, x ∈ l := by
  intro k
  induction k with
  | zero => intro l x hx; simp [argKminListX] at hx
  | succ k ih =>
    intro l x hx
    cases l with
    | nil => simp [argKminListX] at hx
    | cons j t =>
      rw [argKminListX] at hx
      simp only [List.mem_cons] at hx
      rcases hx with rfl | hx
      · exact argminFromX_mem s t j
      · exact List.erase_subset _ _ (ih _ x hx)

lemma argKminListX_nodup (s : ℕ → XF) :
    ∀ (k : ℕ) (l : List ℕ), l.Nodup → (argKminListX s k l).Nodup := by
  intro k
  induction k with
  | zero => intro l _; simp [argKminListX]
  | succ k ih =>
    intro l hl
    cases l with
    | nil => simp [argKminListX]
    | cons j t =>
      rw [argKminListX]
      refine List.nodup_cons.mpr ⟨?_, ih _ (hl.erase _)⟩
      intro hmem
      exact (hl.not_mem_erase) (argKminListX_subset s k _ _ hmem)

lemma argKminListX_length (s : ℕ → XF) :
    ∀ (k : ℕ) (l : List ℕ), k ≤ l.length → (argKminListX s k l).length = k := by
  intro k
  induction k with
  | zero => intro l _; simp [argKminListX]
  | succ k ih =>
    intro l hk
    cases l with
    | nil => simp at hk
    | cons j t =>
      rw [argKminListX]
      have hmem : argminFromX s j t ∈ j :: t := argminFromX_mem s t j
      have hlen : ((j :: t).erase (argminFromX s j t)).length = t.length := by
        rw [List.length_erase_of_mem hmem]
        simp
      simp only [List.length_cons]
      rw [ih _ (by rw [hlen]; simpa using hk)]

/-- Padded source embeddings with the source's actual fill,
`to_dense_batch(h_s, batch_s, fill_value=float('inf'))` (line 62). -/
def BatchCtx.hsDX (c : BatchCtx B Ns Nt d1) : Fin B → Fin Ns → Fin d1 → XF :=
  fun b i f =>
    if h : i.1 < c.ns b then XF.fin (c.hs ⟨b, ⟨i.1, h⟩⟩ f) else XF.posInf

/-- Padded target embeddings with the source's actual fill,
`to_dense_batch(h_t, batch_t, fill_value=float('-inf'))` (line 63). -/
def BatchCtx.htDX (c : BatchCtx B Ns Nt d1) : Fin B → Fin Nt → Fin d1 → XF :=
  fun b j f =>
    if h : j.1 < c.nt b then XF.fin (c.ht ⟨b, ⟨j.1, h⟩⟩ f) else XF.negInf

/-- Padded-target row lookup at an integer index (the columns addressed by
`top_k` and `torch.gather`; every index used is `< Nt`, so the fallback is
never consumed). -/
def BatchCtx.htAtX (c : BatchCtx B Ns Nt d1) (b : Fin B) (m : ℕ)
    (f : Fin d1) : XF :=
  if h : m < Nt then c.htDX b ⟨m, h⟩ f else XF.fin 0

/-- A `top_k` candidate score `S_ij = (-x_s * x_t).sum(dim=-1)` (source
line 51), over the padded tensors with their `±inf` fills. -/
noncomputable def BatchCtx.topkScoreX (c : BatchCtx B Ns Nt d1) (b : Fin B)
    (i : Fin Ns) (m : ℕ) : XF :=
  xsum ((List.finRange d1).map
    (fun f => XF.mul (XF.neg (c.hsDX b i f)) (c.htAtX b m f)))

/-- `S_idx = self.top_k(h_s, h_t)` over the `±inf`-filled tensors
(source lines 48–52 and 90). -/
noncomputable def BatchCtx.S_idxX (c : BatchCtx B Ns Nt d1) (k : ℕ) :
    Fin B → Fin Ns → List ℕ :=
  fun b i => argKminListX (c.topkScoreX b i) k (List.range Nt)

/-- The gathered sparse logits of lines 91–94 over the `±inf`-filled
tensors: a padded source row contributes `+∞` factors, and a gathered
padded column contributes `-∞` factors. -/
noncomputable def BatchCtx.sparseShatX (c : BatchCtx B Ns Nt d1) (k : ℕ) :
    Fin B → Fin Ns → Fin k → XF :=
  fun b i j => xsum ((List.finRange d1).map
    (fun f => XF.mul (c.hsDX b i f)
      (c.htAtX b ((c.S_idxX k b i).getD j.1 0) f)))

/-- The real value a finite entry contributes to a softmax normalizer;
non-finite entries are handled by the guards of `softmaxX` before this is
read (`-∞` genuinely contributes `0`). -/
noncomputable def xexpR : XF → ℝ
  | XF.fin x => Real.exp x
  | _ => 0

/-- `torch.softmax` on a row of extended floats (line 95 applies it with
no mask): a `NaN` entry poisons the row; a `+∞` entry also yields an
all-`NaN` row (the max-shifted computation forms `∞ − ∞`); a row with no
finite mass is `0/0 = NaN`; otherwise the usual finite quotients. -/
noncomputable def softmaxX {k : ℕ} (x : Fin k → XF) : Fin k → XF :=
  fun i =>
    if ∃ j, x j = XF.nan then XF.nan
    else if ∃ j, x j = XF.posInf then XF.nan
    else if (∑ j, xexpR (x j)) = 0 then XF.nan
    else XF.fin (xexpR (x i) / ∑ j, xexpR (x j))

/-- `S_0 = S_hat.softmax(dim=-1)` (source line 95) over the extended
logits. -/
noncomputable def BatchCtx.sparseS0X (c : BatchCtx B Ns Nt d1) (k : ℕ) :
    Fin B → Fin Ns → Fin k → XF :=
  fun b i => softmaxX (c.sparseShatX k b i)

/-- The sparse branch of `forward` (source lines 88–102) over the
extended logits: `(S_0, S_L, S_idx)` with the no-op loop between the two
snapshots. -/
noncomputable def BatchCtx.sparseForwardX (c : BatchCtx B Ns Nt d1)
    (k num_steps : ℕ) :
    (Fin B → Fin Ns → Fin k → XF) × (Fin B → Fin Ns → Fin k → XF) ×
      (Fin B → Fin Ns → List ℕ) :=
  (c.sparseS0X k, noOpLoop num_steps (c.sparseS0X k), c.S_idxX k)

lemma xsum_map_fin {α : Type} (g : α → ℝ) :
    ∀ l : List α, xsum (l.map (fun a => XF.fin (g a))) = XF.fin ((l.map g).sum) := by
  intro l
  induction l with
  | nil => rfl
  | cons a t ih => simp only [List.map_cons, xsum, ih, XF.add, List.sum_cons]

lemma finRange_map_sum :
    ∀ (k : ℕ) (g : Fin k → ℝ), ((List.finRange k).map g).sum = ∑ j, g j := by
  intro k
  induction k with
  | zero => intro g; simp
  | succ k ih =>
    intro g
    rw [List.finRange_succ_eq_map, List.map_cons, List.map_map,
      List.sum_cons, Fin.sum_univ_succ, ih (g ∘ Fin.succ)]
    rfl

/-- On a row of finite entries the extended softmax reduces to the finite
quotients and the row sums to exactly `1`. -/
lemma softmaxX_fin_row_sum_one {k : ℕ} (hk : 0 < k) (x : Fin k → XF)
    (y : Fin k → ℝ) (hxy : ∀ j, x j = XF.fin (y j)) :
    xsum ((List.finRange k).map (softmaxX x)) = XF.fin 1 := by
  have hne : Nonempty (Fin k) := ⟨⟨0, hk⟩⟩
  have hnan : ¬ ∃ j, x j = XF.nan := by
    rintro ⟨j, hj⟩; rw [hxy j] at hj; exact XF.noConfusion hj
  have hpos' : ¬ ∃ j, x j = XF.posInf := by
    rintro ⟨j, hj⟩; rw [hxy j] at hj; exact XF.noConfusion hj
  have hxe : ∀ j, xexpR (x j) = Real.exp (y j) := fun j => by rw [hxy j]; rfl
  have hZe : (∑ j, xexpR (x j)) = ∑ j, Real.exp (y j) :=
    Finset.sum_congr rfl fun j _ => hxe j
  have hZpos : 0 < ∑ j, Real.exp (y j) :=
    Finset.sum_pos (fun j _ => Real.exp_pos (y j)) Finset.univ_nonempty
  have hZ : (∑ j, xexpR (x j)) ≠ 0 := by rw [hZe]; exact hZpos.ne'
  have hsm : ∀ i, softmaxX x i
      = XF.fin (Real.exp (y i) / ∑ j, Real.exp (y j)) := by
    intro i
    rw [softmaxX, if_neg hnan, if_neg hpos', if_neg hZ, hxe i, hZe]
  have hmap : (List.finRange k).map (softmaxX x)
      = (List.finRange k).map
          (fun i => XF.fin (Real.exp (y i) / ∑ j, Real.exp (y j))) :=
    List.map_congr_left fun i _ => hsm i
  rw [hmap, xsum_map_fin, finRange_map_sum]
  rw [← Finset.sum_div, div_self hZpos.ne']

/-- On a valid source row of a pair whose target count fills the padded
width, every gathered sparse logit is finite: no `±inf` fill can be
consumed. -/
lemma sparseShatX_isFin (c : BatchCtx B Ns Nt d1) {k : ℕ} (b : Fin B)
    (i : Fin Ns) (hi : i.1 < c.ns b) (hfull : c.nt b = Nt) (hkN : k ≤ Nt)
    (j : Fin k) : ∃ r : ℝ, c.sparseShatX k b i j = XF.fin r := by
  have hlen : (c.S_idxX k b i).length = k :=
    argKminListX_length _ k _ (by simpa using hkN)
  have hj : j.1 < (c.S_idxX k b i).length := by rw [hlen]; exact j.2
  have hmem : (c.S_idxX k b i).getD j.1 0 ∈ c.S_idxX k b i := by
    rw [List.getD_eq_getElem _ _ hj]
    exact List.getElem_mem _
  have hmNt : (c.S_idxX k b i).getD j.1 0 < Nt := by
    have := argKminListX_subset _ k _ _ hmem
    simpa using this
  have hmnt : (c.S_idxX k b i).getD j.1 0 < c.nt b := by rw [hfull]; exact hmNt
  refine ⟨∑ f, c.hs ⟨b, ⟨i.1, hi⟩⟩ f
    * c.ht ⟨b, ⟨(c.S_idxX k b i).getD j.1 0, hmnt⟩⟩ f, ?_⟩
  rw [BatchCtx.sparseShatX]
  have hmap : (List.finRange d1).map
      (fun f => XF.mul (c.hsDX b i f)
        (c.htAtX b ((c.S_idxX k b i).getD j.1 0) f))
      = (List.finRange d1).map (fun f => XF.fin
          (c.hs ⟨b, ⟨i.1, hi⟩⟩ f
            * c.ht ⟨b, ⟨(c.S_idxX k b i).getD j.1 0, hmnt⟩⟩ f)) := by
    refine List.map_congr_left fun f _ => ?_
    simp only [BatchCtx.hsDX, BatchCtx.htAtX, BatchCtx.htDX]
    rw [dif_pos hi, dif_pos hmNt, dif_pos hmnt]
    rfl
  rw [hmap, xsum_map_fin, finRange_map_sum]

/-- C6 (amended): in sparse mode, on a source row that can consume no
padding — a valid source node of a pair whose real target count equals
the padded target width, with `1 ≤ k ≤` that count (so spec §9's open
case, `k` exceeding a pair's real target count, is excluded) — the row of
the returned `S_0` and of `S_L` sums to exactly `1` over the `k`-candidate
axis, and `S_idx` holds for it `k` integer indices of real target nodes.
On rows that do consume padding the program's `±inf` fills instead make
the softmax row `NaN` (see the counterexample). -/
theorem sparse_rows_stochastic_amended (c : BatchCtx B Ns Nt d1)
    (k num_steps : ℕ) (hk : 0 < k) (hkN : k ≤ Nt) (b : Fin B) (i : Fin Ns)
    (hi : i.1 < c.ns b) (hfull : c.nt b = Nt) :
    xsum ((List.finRange k).map ((c.sparseForwardX k num_steps).1 b i))
        = XF.fin 1 ∧
      xsum ((List.finRange k).map ((c.sparseForwardX k num_steps).2.1 b i))
        = XF.fin 1 ∧
      ((c.sparseForwardX k num_steps).2.2 b i).length = k ∧
      (∀ m ∈ (c.sparseForwardX k num_steps).2.2 b i, m < c.nt b) := by
  have hfin : ∀ j : Fin k, ∃ r, c.sparseShatX k b i j = XF.fin r :=
    fun j => sparseShatX_isFin c b i hi hfull hkN j
  choose y hy using hfin
  have hsum : xsum ((List.finRange k).map (c.sparseS0X k b i)) = XF.fin 1 := by
    show xsum ((List.finRange k).map (softmaxX (c.sparseShatX k b i)))
      = XF.fin 1
    exact softmaxX_fin_row_sum_one hk _ y hy
  refine ⟨hsum, ?_, ?_, ?_⟩
  · show xsum ((List.finRange k).map
      (noOpLoop num_steps (c.sparseS0X k) b i)) = XF.fin 1
    rw [noOpLoop_eq]
    exact hsum
  · exact argKminListX_length _ k _ (by simpa using hkN)
  · intro m hm
    have := argKminListX_subset _ k _ m hm
    rw [hfull]
    simpa using this

/-- A concrete one-pair batch whose target side fills the padded width,
used by the amended-C6 witness. -/
noncomputable def ctxC6full : BatchCtx 1 1 2 1 where
  ns := fun _ => 1
  nt := fun _ => 2
  hns := fun _ => le_refl 1
  hnt := fun _ => le_refl 2
  hs := fun _ _ => 1
  ht := fun v _ => if v.2.1 = 0 then 1 else 2
  fillS := 3
  fillT := -3

/-- Witness for amended C6 at a concrete padding-free batch with `k = 2`. -/
theorem sparse_rows_stochastic_amended_witness :
    xsum ((List.finRange 2).map ((ctxC6full.sparseForwardX 2 5).1 0 0))
      = XF.fin 1 :=
  (sparse_rows_stochastic_amended ctxC6full 2 5 (by decide) (by decide) 0 0
    (by decide) rfl).1

lemma argminFromX_nil (s : ℕ → XF) (b0 : ℕ) : argminFromX s b0 [] = b0 := rfl

lemma argminFromX_cons (s : ℕ → XF) (b0 j : ℕ) (t : List ℕ) :
    argminFromX s b0 (j :: t)
      = if XF.Lt (s j) (s b0) then argminFromX s j t
        else argminFromX s b0 t := rfl

/-- A padded two-pair batch: pair `0` has 3 target nodes (fixing the
padded width `Nt = 3`), pair `1` has 1 source node with feature `-1` and
only 2 target nodes (features `1` and `2`), so its third target column is
`-inf` fill. -/
noncomputable def ctxC6X : BatchCtx 2 1 3 1 where
  ns := fun _ => 1
  nt := fun b => if b.1 = 0 then 3 else 2
  hns := fun _ => le_refl 1
  hnt := fun b => by by_cases h : b.1 = 0 <;> simp [h]
  hs := fun _ _ => -1
  ht := fun v _ => if v.2.1 = 0 then 1 else 2
  fillS := 0
  fillT := 0

lemma ctxC6X_hs (v : (b : Fin 2) × Fin (ctxC6X.ns b)) (f : Fin 1) :
    ctxC6X.hs v f = -1 := rfl

lemma ctxC6X_ht (v : (b : Fin 2) × Fin (ctxC6X.nt b)) (f : Fin 1) :
    ctxC6X.ht v f = if v.2.1 = 0 then 1 else 2 := rfl

lemma ctxC6X_score0 : ctxC6X.topkScoreX 1 0 0 = XF.fin 1 := by
  show xsum ((List.finRange 1).map
    (fun f => XF.mul (XF.neg (ctxC6X.hsDX 1 0 f)) (ctxC6X.htAtX 1 0 f)))
    = XF.fin 1
  rw [show (List.finRange 1) = [(0 : Fin 1)] from rfl, List.map_cons,
    List.map_nil]
  norm_num [BatchCtx.hsDX, BatchCtx.htAtX, BatchCtx.htDX, ctxC6X, ctxC6X_hs,
    ctxC6X_ht, XF.neg, XF.mul, xsum, XF.add]

lemma ctxC6X_score1 : ctxC6X.topkScoreX 1 0 1 = XF.fin 2 := by
  show xsum ((List.finRange 1).map
    (fun f => XF.mul (XF.neg (ctxC6X.hsDX 1 0 f)) (ctxC6X.htAtX 1 1 f)))
    = XF.fin 2
  rw [show (List.finRange 1) = [(0 : Fin 1)] from rfl, List.map_cons,
    List.map_nil]
  norm_num [BatchCtx.hsDX, BatchCtx.htAtX, BatchCtx.htDX, ctxC6X, ctxC6X_hs,
    ctxC6X_ht, XF.neg, XF.mul, xsum, XF.add]

lemma ctxC6X_score2 : ctxC6X.topkScoreX 1 0 2 = XF.negInf := by
  show xsum ((List.finRange 1).map
    (fun f => XF.mul (XF.neg (ctxC6X.hsDX 1 0 f)) (ctxC6X.htAtX 1 2 f)))
    = XF.negInf
  rw [show (List.finRange 1) = [(0 : Fin 1)] from rfl, List.map_cons,
    List.map_nil]
  norm_num [BatchCtx.hsDX, BatchCtx.htAtX, BatchCtx.htDX, ctxC6X, ctxC6X_hs,
    ctxC6X_ht, XF.neg, XF.mul, xsum, XF.add]

lemma ctxC6X_idx : ctxC6X.S_idxX 2 1 0 = [2, 0] := by
  have hlt10 : ¬ XF.Lt (ctxC6X.topkScoreX 1 0 1) (ctxC6X.topkScoreX 1 0 0) := by
    rw [ctxC6X_score1, ctxC6X_score0]
    show ¬ ((2 : ℝ) < 1)
    norm_num
  have hlt20 : XF.Lt (ctxC6X.topkScoreX 1 0 2) (ctxC6X.topkScoreX 1 0 0) := by
    rw [ctxC6X_score2, ctxC6X_score0]
    show True
    trivial
  have ha1 : argminFromX (ctxC6X.topkScoreX 1 0) 0 [1, 2] = 2 := by
    rw [argminFromX_cons, if_neg hlt10, argminFromX_cons, if_pos hlt20,
      argminFromX_nil]
  have ha2 : argminFromX (ctxC6X.topkScoreX 1 0) 0 [1] = 0 := by
    rw [argminFromX_cons, if_neg hlt10, argminFromX_nil]
  have step1 : ctxC6X.S_idxX 2 1 0
      = argminFromX (ctxC6X.topkScoreX 1 0) 0 [1, 2]
        :: argKminListX (ctxC6X.topkScoreX 1 0) 1
            (([0, 1, 2] : List ℕ).erase
              (argminFromX (ctxC6X.topkScoreX 1 0) 0 [1, 2])) := rfl
  rw [step1, ha1, show (([0, 1, 2] : List ℕ).erase 2) = [0, 1] by decide]
  have step2 : argKminListX (ctxC6X.topkScoreX 1 0) 1 [0, 1]
      = argminFromX (ctxC6X.topkScoreX 1 0) 0 [1]
        :: argKminListX (ctxC6X.topkScoreX 1 0) 0
            (([0, 1] : List ℕ).erase
              (argminFromX (ctxC6X.topkScoreX 1 0) 0 [1])) := rfl
  rw [step2, ha2]
  rfl

lemma ctxC6X_shat0 : ctxC6X.sparseShatX 2 1 0 0 = XF.posInf := by
  show xsum ((List.finRange 1).map
    (fun f => XF.mul (ctxC6X.hsDX 1 0 f)
      (ctxC6X.htAtX 1 ((ctxC6X.S_idxX 2 1 0).getD 0 0) f))) = XF.posInf
  rw [ctxC6X_idx]
  rw [show (([2, 0] : List ℕ).getD 0 0) = 2 from rfl]
  rw [show (List.finRange 1) = [(0 : Fin 1)] from rfl, List.map_cons,
    List.map_nil]
  norm_num [BatchCtx.hsDX, BatchCtx.htAtX, BatchCtx.htDX, ctxC6X, ctxC6X_hs,
    ctxC6X_ht, XF.mul, xsum, XF.add]

lemma ctxC6X_shat1 : ctxC6X.sparseShatX 2 1 0 1 = XF.fin (-1) := by
  show xsum ((List.finRange 1).map
    (fun f => XF.mul (ctxC6X.hsDX 1 0 f)
      (ctxC6X.htAtX 1 ((ctxC6X.S_idxX 2 1 0).getD 1 0) f))) = XF.fin (-1)
  rw [ctxC6X_idx]
  rw [show (([2, 0] : List ℕ).getD 1 0) = 0 from rfl]
  rw [show (List.finRange 1) = [(0 : Fin 1)] from rfl, List.map_cons,
    List.map_nil]
  norm_num [BatchCtx.hsDX, BatchCtx.htAtX, BatchCtx.htDX, ctxC6X, ctxC6X_hs,
    ctxC6X_ht, XF.mul, xsum, XF.add]

lemma ctxC6X_S0_nan : ∀ j : Fin 2, ctxC6X.sparseS0X 2 1 0 j = XF.nan := by
  intro j
  have hnonan : ¬ ∃ j', ctxC6X.sparseShatX 2 1 0 j' = XF.nan := by
    rintro ⟨j', hj'⟩
    have h2 : ∀ j'' : Fin 2, j'' = 0 ∨ j'' = 1 := by decide
    rcases h2 j' with rfl | rfl
    · rw [ctxC6X_shat0] at hj'; exact XF.noConfusion hj'
    · rw [ctxC6X_shat1] at hj'; exact XF.noConfusion hj'
  have hpos : ∃ j', ctxC6X.sparseShatX 2 1 0 j' = XF.posInf := ⟨0, ctxC6X_shat0⟩
  show softmaxX (ctxC6X.sparseShatX 2 1 0) j = XF.nan
  rw [softmaxX]
  rw [if_neg hnonan, if_pos hpos]

/-- C6 counterexample: a concrete padded batch on which the claim fails.
Pair `1` of `ctxC6X` has one valid source node and 2 real target nodes
inside a padded width of 3, and `k = 2`.  The `-inf`-filled padded column
scores `-∞` in `top_k` — the smallest score — so `S_idx` selects the
padded pseudo-candidate (index `2`, outside the pair's 2 real targets);
the gathered logit is `(-1)·(-∞) = +∞`, the unmasked softmax row is
all-`NaN`, and the returned rows of `S_0` and `S_L` sum to `NaN`, not
`1`. -/
theorem sparse_rows_stochastic_counterexample :
    xsum ((List.finRange 2).map ((ctxC6X.sparseForwardX 2 5).1 1 0))
        ≠ XF.fin 1 ∧
      xsum ((List.finRange 2).map ((ctxC6X.sparseForwardX 2 5).2.1 1 0))
        ≠ XF.fin 1 ∧
      (ctxC6X.S_idxX 2 1 0).getD 0 0 = 2 ∧ ctxC6X.nt 1 = 2 := by
  have hrow : xsum ((List.finRange 2).map (ctxC6X.sparseS0X 2 1 0))
      = XF.nan := by
    rw [show (List.finRange 2) = [(0 : Fin 2), 1] from rfl, List.map_cons,
      List.map_cons, List.map_nil, ctxC6X_S0_nan 0, ctxC6X_S0_nan 1]
    rfl
  refine ⟨?_, ?_, ?_, rfl⟩
  · show xsum ((List.finRange 2).map (ctxC6X.sparseS0X 2 1 0)) ≠ XF.fin 1
    rw [hrow]
    exact fun h => XF.noConfusion h
  · show xsum ((List.finRange 2).map
      (noOpLoop 5 (ctxC6X.sparseS0X 2) 1 0)) ≠ XF.fin 1
    rw [noOpLoop_eq]
    rw [hrow]
    exact fun h => XF.noConfusion h
  · rw [ctxC6X_idx]
    rfl

end DGMC
